import Mathlib

/-!
Shallow embedding of `src/lib/python/treadmill/websocket/__init__.py`
(the treadmill websocket pub/sub hub) and verification of the frozen
claims about it.

Modelling conventions:
* A filesystem path is split into its directory part and its basename
  (`Path.dir`, `Path.base`); the full path string is `dir ++ "/" ++ base`,
  mirroring `os.path.join` / `os.path.dirname` / `os.path.basename`.
* Timestamps are `Nat` (integer unix time, as the spec's external
  interface declares).
* Glob matching (`fnmatch.fnmatch`, SQLite `GLOB`, the basename component
  of `glob.glob`) is embedded for the `*` / `?` / literal-character
  fragment; character classes are not used by any claim and `[` is
  treated as a literal character.
* Connections are identified by `Nat` ids; liveness (`handler.active()`)
  is a predicate `Nat → Bool` giving the liveness snapshot under which an
  operation runs.
* Effects on a connection are reified as `Action`s:
  `handler.write_message(payload)` (with the hub-attached `when`),
  `send_error_msg` (which writes an `_error` frame and, with the default
  `close_conn=True`, also closes the connection), and `close`.
* A topic implementation's `on_event` is modelled as a function returning
  `Except String (Option String)`: `.error e` models the call raising an
  exception whose formatted description is `e`; `.ok none` models a
  `None` ("not relevant") result; `.ok (some payload)` a payload, the
  payload dict abstracted to a `String`.
-/

namespace Treadmill

/-- A filesystem path, split as `os.path.dirname` / `os.path.basename`
would split it.  The full path string is `dir ++ "/" ++ base`. -/
structure Path where
  dir : String
  base : String
deriving DecidableEq, Repr

/-- The full path string of a `Path` (what `os.path.join(dir, base)`
yields when `base` is relative). -/
def Path.full (p : Path) : String := p.dir ++ "/" ++ p.base

/-- Python's `name[0] == '.'` test on a basename (the dotfile test used
throughout the hub). -/
def hiddenName (s : String) : Bool := s.data.head? == some '.'

/-- Fuelled worker for shell-style glob matching with `*`, `?` and
literal characters.  Each step consumes one fuel unit and strictly
decreases `pattern.length + text.length`, so fuel
`pattern.length + text.length + 1` always suffices; fuel `0` is never
reached from `globMatch` below. -/
def globGo : Nat → List Char → List Char → Bool
  | 0, _, _ => false
  | _ + 1, [], [] => true
  | n + 1, p :: ps, [] => p == '*' && globGo n ps []
  | _ + 1, [], _ :: _ => false
  | n + 1, p :: ps, c :: cs =>
    if p == '*' then globGo n ps (c :: cs) || globGo n (p :: ps) cs
    else if p == '?' then globGo n ps cs
    else p == c && globGo n ps cs

/-- Shell-style glob match of `text` against `pattern` (`*`, `?`,
literal characters).  Embeds both `fnmatch.fnmatch` (case-sensitive, as
on POSIX) and SQLite's `GLOB` operator restricted to the class-free
pattern fragment. -/
def globMatch (pattern text : String) : Bool :=
  globGo (pattern.length + text.length + 1) pattern.data text.data

/-- One record of the state-of-the-world: the `(timestamp, path, data)`
tuples produced both by the sow database query and by the filesystem
scan in `_get_fs_sow`. -/
structure SowRec where
  when : Nat
  path : String
  content : String
deriving DecidableEq, Repr

/-- Python tuple comparison `(when, path, content) <= (when', path', content')`
(lexicographic; strings byte-lexicographic). -/
def recLe (a b : SowRec) : Bool :=
  if a.when ≠ b.when then a.when < b.when
  else if a.path ≠ b.path then a.path < b.path
  else a.content ≤ b.content

/-- Insert into a list sorted by `recLe`, before the first element it is
`recLe`-below-or-equal; `sortRecs` below is the stable sort Python's
`sorted` performs on the record tuples. -/
def insRec (a : SowRec) : List SowRec → List SowRec
  | [] => [a]
  | b :: l => if recLe a b then a :: b :: l else b :: insRec a l

/-- Stable sort by Python tuple order, modelling `sorted(items)` in
`_get_fs_sow`. -/
def sortRecs : List SowRec → List SowRec
  | [] => []
  | a :: l => insRec a (sortRecs l)

/-- Insert into a list sorted by timestamp (stable). -/
def insWhen (a : SowRec) : List SowRec → List SowRec
  | [] => [a]
  | b :: l => if a.when ≤ b.when then a :: b :: l else b :: insWhen a l

/-- Stable sort ascending by timestamp, modelling the
`ORDER BY timestamp` of the sow database query. -/
def sortWhen : List SowRec → List SowRec
  | [] => []
  | a :: l => insWhen a (sortWhen l)

/-- The sow database query
`SELECT timestamp, path, data FROM sow WHERE path GLOB ? AND timestamp >= ? ORDER BY timestamp`
run against table `table` with parameters `(g, since)`. -/
def dbQuery (table : List SowRec) (g : String) (since : Nat) : List SowRec :=
  sortWhen (table.filter (fun r => globMatch g r.path && since ≤ r.when))

/-- One regular file of the modelled filesystem: directory, basename,
content and integer mtime. -/
structure FsFile where
  dir : String
  base : String
  content : String
  mtime : Nat
deriving DecidableEq, Repr

/-- Whether `glob.glob(os.path.join(directory, pattern))` keeps a
basename: Python's glob hides dotfiles unless the pattern itself starts
with a dot, then fnmatch-filters. -/
def globKeep (pattern base : String) : Bool :=
  (hiddenName pattern || !hiddenName base) && globMatch pattern base

/-- `_get_fs_sow(directory, pattern, since)`: glob the directory for the
pattern, read each file's mtime and content, keep the ones with
`mtime >= since` as `(int(mtime), path-with-root-stripped, content)`, and
return them sorted in Python tuple order. -/
def getFsSow (rootLen : Nat) (fs : List FsFile) (directory pattern : String)
    (since : Nat) : List SowRec :=
  sortRecs ((fs.filter (fun f => f.dir == directory && globKeep pattern f.base)).filterMap
    (fun f =>
      if since ≤ f.mtime then
        some ⟨f.mtime, (f.dir ++ "/" ++ f.base).drop rootLen, f.content⟩
      else none))

/-- Fuelled two-iterator `heapq.merge`: repeatedly pop the smaller head
(ties favour the first iterator, as `heapq.merge`'s per-iterator index
tie-break does).  Each step consumes one element, so fuel
`xs.length + ys.length` always suffices; the fuel-exhausted branch is
unreachable from `mergeRecs` below. -/
def mergeGo : Nat → List SowRec → List SowRec → List SowRec
  | 0, xs, ys => xs ++ ys
  | _ + 1, [], ys => ys
  | _ + 1, x :: xs, [] => x :: xs
  | n + 1, x :: xs, y :: ys =>
    if recLe x y then x :: mergeGo n xs (y :: ys) else y :: mergeGo n (x :: xs) ys

/-- `heapq.merge(db_records, fs_records)` for two iterables. -/
def mergeRecs (xs ys : List SowRec) : List SowRec :=
  mergeGo (xs.length + ys.length) xs ys

/-- The `prev_path` deduplication loop of `_sow`: skip a record whose
path equals the previously delivered path, otherwise deliver it and
remember its path. -/
def dedupGo (prev : Option String) : List SowRec → List SowRec
  | [] => []
  | r :: rs => if some r.path == prev then dedupGo prev rs else r :: dedupGo (some r.path) rs

/-- Adjacent-path deduplication over the merged record stream
(`prev_path` starts as `None`). -/
def dedupAdj (l : List SowRec) : List SowRec := dedupGo none l

/-- An effect on a connection, identified by its `Nat` id:
`msg` is `handler.write_message(payload)` after the hub set
`payload['when'] = when`; `errFrame` is the `_error` frame written by
`send_error_msg`; `close` is `handler.close()`. -/
inductive Action where
  | msg (conn : Nat) (payload : String) (when : Nat)
  | errFrame (conn : Nat) (text : String)
  | close (conn : Nat)
deriving DecidableEq, Repr

/-- A topic implementation as the hub consumes it for one request:
`onEvent` is `impl.on_event` (`.error e` models a raised exception with
formatted description `e`); `subscribeRes` is the outcome of
`impl.subscribe(message)` for the request at hand; `sowDb` is the sow
database table when the implementation has a `sow_db` attribute; `id`
tags the implementation in hub state. -/
structure WsImpl where
  id : Nat
  onEvent : String → Option Char → Option String → Except String (Option String)
  subscribeRes : Except String (List (String × String))
  sowDb : Option (List SowRec)

/-- The record stream `_sow(directory, pattern, since, ...)` delivers:
coerce a `None` `since` to `0`, query the sow database (when the
implementation exposes one) with glob `directory[len(root):] + "/" +
pattern`, scan the filesystem, `heapq.merge` the two streams and apply
the `prev_path` deduplication. -/
def sowRecsList (root : String) (fs : List FsFile) (impl : WsImpl)
    (directory pattern : String) (since : Option Nat) : List SowRec :=
  let s := since.getD 0
  let fsRecords := getFsSow root.length fs directory pattern s
  let dbRecords :=
    match impl.sowDb with
    | none => []
    | some table => dbQuery table ((directory.drop root.length) ++ "/" ++ pattern) s
  dedupAdj (mergeRecs dbRecords fsRecords)

/-- `_publish` applied to each surviving sow record: ask the
implementation to interpret it (`operation = None`), deliver the
payload with `when` attached when one is produced, and on a raised
exception let `send_error_msg` write an error frame and close the
connection (its default `close_conn=True`). -/
def sowActionsFor (onEv : String → Option Char → Option String → Except String (Option String))
    (conn : Nat) (recs : List SowRec) : List Action :=
  recs.flatMap (fun r =>
    match onEv r.path none (some r.content) with
    | .ok none => []
    | .ok (some payload) => [.msg conn payload r.when]
    | .error e => [.errFrame conn e, .close conn])

/-- The full action trace of one `_sow` call. -/
def sowActions (root : String) (fs : List FsFile) (impl : WsImpl)
    (directory pattern : String) (since : Option Nat) (conn : Nat) : List Action :=
  sowActionsFor impl.onEvent conn (sowRecsList root fs impl directory pattern since)

/-- One `(pattern, ws_handler, impl)` entry of a directory's handler
bucket, with the handler and the implementation named by id. -/
structure Sub where
  pattern : String
  conn : Nat
  implId : Nat
deriving DecidableEq, Repr

/-- The mutable state of `DirWatchPubSub` the subscription claims are
about: `handlers` is the `defaultdict(list)` bucket map from normalized
directory path to its subscription list, `watched` the directories
registered with the `DirWatcher` (a multiset: `add_dir` appends, so that
the at-most-one-registration discipline is the hub's to maintain). -/
structure Hub where
  handlers : List (String × List Sub)
  watched : List String
deriving DecidableEq, Repr

/-- The hub's initial state: no buckets, nothing watched. -/
def hub0 : Hub := ⟨[], []⟩

/-- `self.handlers[d]` for reading: the bucket stored under key `d`, the
defaultdict's `[]` when the key is absent. -/
def getBucket (hs : List (String × List Sub)) (d : String) : List Sub :=
  match hs.find? (fun e => e.fst == d) with
  | some e => e.snd
  | none => []

/-- `self.handlers[d] = b`: overwrite the bucket under key `d`, adding
the key at the end when absent (dict insertion order). -/
def setBucket (d : String) (b : List Sub) : List (String × List Sub) → List (String × List Sub)
  | [] => [(d, b)]
  | e :: rest => if e.fst == d then (d, b) :: rest else e :: setBucket d b rest

/-- `register(directory, pattern, ws_handler, impl, since)` restricted to
its effect on hub state, keyed by the already-normalized path: when the
bucket is empty the directory is added to the watcher (`add_dir`), then
the subscription is appended to the bucket.  (The `_sow` replay the call
also performs is `sowActions`; it does not touch hub state.) -/
def registerHub (h : Hub) (normPath : String) (s : Sub) : Hub :=
  let bucket := getBucket h.handlers normPath
  { handlers := setBucket normPath (bucket ++ [s]) h.handlers
    watched := if bucket.isEmpty then h.watched ++ [normPath] else h.watched }

/-- `DirWatcher.remove_dir`: drop one registration of the directory (a
no-op when it is not registered). -/
def eraseOne (d : String) : List String → List String
  | [] => []
  | x :: xs => if x == d then xs else x :: eraseOne d xs

/-- The body of `_gc`'s loop over `list(self.handlers.viewkeys())`: for
each key in order, keep only the subscriptions whose handler is active
under the liveness snapshot `active`, call `remove_dir` when none
survive, and store the filtered list back under the key (the key itself
is never deleted). -/
def gcGo (active : Nat → Bool) :
    List (String × List Sub) → List String → List (String × List Sub) × List String
  | [], w => ([], w)
  | (d, subs) :: rest, w =>
    let subs' := subs.filter (fun s => active s.conn)
    let w' := if subs'.isEmpty then eraseOne d w else w
    let (hs, w'') := gcGo active rest w'
    ((d, subs') :: hs, w'')

/-- `_gc()` on a hub state under liveness snapshot `active`. -/
def gcHub (active : Nat → Bool) (h : Hub) : Hub :=
  let (hs, w) := gcGo active h.handlers h.watched
  { handlers := hs, watched := w }

/-- One hub-state operation: a registration (with its normalized
directory path) or a gc pass under some liveness snapshot. -/
inductive HubOp where
  | register (normPath : String) (s : Sub)
  | gc (active : Nat → Bool)

/-- Apply one operation to a hub state. -/
def applyOp (h : Hub) : HubOp → Hub
  | .register d s => registerHub h d s
  | .gc active => gcHub active h

/-- Run a sequence of operations from the initial hub state. -/
def runOps (ops : List HubOp) : Hub := ops.foldl applyOp hub0

/-- A `(pattern, handler, impl)` bucket entry as `_notify` consumes it,
with the implementation's `on_event` behaviour inlined. -/
structure NSub where
  pattern : String
  conn : Nat
  onEvent : String → Option Char → Option String → Except String (Option String)

/-- `_notify`'s treatment of one bucket entry: skip inactive handlers
and non-matching filenames; otherwise interpret the event with the
entry's implementation — a payload is delivered with `when` attached, a
raised exception makes `send_error_msg` write an error frame to that
handler and close it (default `close_conn=True`). -/
def subActions (active : Nat → Bool) (rootLen : Nat) (p : Path) (op : Char)
    (content : Option String) (when : Nat) (s : NSub) : List Action :=
  if !active s.conn then []
  else if globMatch s.pattern p.base then
    match s.onEvent (p.full.drop rootLen) (some op) content with
    | .ok none => []
    | .ok (some payload) => [.msg s.conn payload when]
    | .error e => [.errFrame s.conn e, .close s.conn]
  else []

/-- `_notify(path, operation, content, when)`: the actions produced by
iterating `self.handlers[os.path.dirname(path)]` (passed here as
`bucket`).  Liveness is the snapshot under which the dispatch runs. -/
def notifyActions (active : Nat → Bool) (bucket : List NSub) (rootLen : Nat)
    (p : Path) (op : Char) (content : Option String) (when : Nat) : List Action :=
  bucket.flatMap (subActions active rootLen p op content when)

/-- What the two filesystem probes of `_handle` see for the notified
file: `present` — `os.stat` and `open` both succeed; `goneBeforeOpen` —
`os.stat` succeeds but the file vanishes before `open`, which raises
`IOError(ENOENT)`; `goneBeforeStat` — the file vanished before
`os.stat`, which raises `OSError(ENOENT)`. -/
inductive StatResult where
  | present (content : String) (mtime : Nat)
  | goneBeforeOpen (mtime : Nat)
  | goneBeforeStat
deriving DecidableEq, Repr

/-- A Python exception escaping the embedded code. -/
inductive PyErr where
  | osENOENT
deriving DecidableEq, Repr

/-- The raw event `_handle` hands to `_notify`: operation, content and
timestamp. -/
structure RawEv where
  op : Char
  content : Option String
  when : Nat
deriving DecidableEq, Repr

/-- The body of `_handle(operation, filename)`: stat and read the file;
only an `IOError` with errno `ENOENT` (from `open`) is caught and
degrades the event to a deletion at the current time — the `OSError`
that `os.stat` raises in Python 2 when the file is already gone is not
an `IOError` and escapes. -/
def handleEv (sr : StatResult) (op : Char) (now : Nat) : Except PyErr RawEv :=
  match sr with
  | .present c m => .ok ⟨op, some c, m⟩
  | .goneBeforeOpen _ => .ok ⟨'d', none, now⟩
  | .goneBeforeStat => .error .osENOENT

/-- `_on_created(filename)` up to the raw event it dispatches: dotfiles
are dropped, otherwise `_handle('c', filename)` runs. -/
def onCreatedEvent (sr : StatResult) (p : Path) (now : Nat) : Except PyErr (Option RawEv) :=
  if hiddenName p.base then .ok none
  else (handleEv sr 'c' now).map some

/-- `_on_modified(filename)` up to the raw event it dispatches. -/
def onModifiedEvent (sr : StatResult) (p : Path) (now : Nat) : Except PyErr (Option RawEv) :=
  if hiddenName p.base then .ok none
  else (handleEv sr 'm' now).map some

/-- The filesystem state `_on_deleted` probes: the regular files and the
directories that exist when the callback runs. -/
structure FState where
  files : List FsFile
  dirs : List Path
deriving Repr

/-- `os.path.exists` on the modelled filesystem. -/
def fexists (fs : FState) (p : Path) : Bool :=
  fs.files.any (fun f => f.dir == p.dir && f.base == p.base) || fs.dirs.contains p

/-- `_on_deleted(filename)` up to the raw event it dispatches: dotfiles
are dropped; when the sibling `.done` marker exists the deletion is part
of the move-to-sow-database protocol and is dropped; directories are
dropped; otherwise a deletion event with no content at the current time
is dispatched. -/
def onDeletedEvent (fs : FState) (p : Path) (now : Nat) : Option RawEv :=
  if hiddenName p.base then none
  else if fexists fs ⟨p.dir, ".done"⟩ then none
  else if fs.dirs.contains p then none
  else some ⟨'d', none, now⟩

/-- `_on_created` down to the delivered actions. -/
def onCreatedActions (sr : StatResult) (p : Path) (now : Nat) (active : Nat → Bool)
    (bucket : List NSub) (rootLen : Nat) : Except PyErr (List Action) :=
  (onCreatedEvent sr p now).map (fun ev? =>
    match ev? with
    | none => []
    | some ev => notifyActions active bucket rootLen p ev.op ev.content ev.when)

/-- `_on_modified` down to the delivered actions. -/
def onModifiedActions (sr : StatResult) (p : Path) (now : Nat) (active : Nat → Bool)
    (bucket : List NSub) (rootLen : Nat) : Except PyErr (List Action) :=
  (onModifiedEvent sr p now).map (fun ev? =>
    match ev? with
    | none => []
    | some ev => notifyActions active bucket rootLen p ev.op ev.content ev.when)

/-- `_on_deleted` down to the delivered actions. -/
def onDeletedActions (fs : FState) (p : Path) (now : Nat) (active : Nat → Bool)
    (bucket : List NSub) (rootLen : Nat) : List Action :=
  match onDeletedEvent fs p now with
  | none => []
  | some ev => notifyActions active bucket rootLen p ev.op ev.content ev.when

/-- The `since` field of a subscribe request: absent, an explicit JSON
`null`, or an integer value.  `message.get('since', 0)` yields `0` for
an absent field and Python `None` for a null one. -/
inductive SinceField where
  | absent
  | null
  | val (n : Nat)
deriving DecidableEq, Repr

/-- `message.get('since', 0)` as the `Option Nat` the hub receives
(`none` is Python `None`). -/
def sinceVal : SinceField → Option Nat
  | .absent => some 0
  | .null => none
  | .val n => some n

/-- A decoded subscribe request. -/
structure SubMsg where
  topic : String
  sinceF : SinceField
  snapshot : Bool
deriving DecidableEq, Repr

/-- The outcome of decoding an inbound frame in `on_message`:
`malformed` — `json.loads` (or the dict access) raised with description
`e`; `missingTopic` — `message['topic']` raised `KeyError`;
`parsed` — a well-formed request. -/
inductive ParseOutcome where
  | malformed (err : String)
  | missingTopic (err : String)
  | parsed (m : SubMsg)

/-- `pubsub.impl.get(topic)`. -/
def lookupImpl (implMap : List (String × WsImpl)) (topic : String) : Option WsImpl :=
  match implMap.find? (fun e => e.fst == topic) with
  | some e => some e.snd
  | none => none

/-- The error text of `send_error_msg('Invalid topic: %r' % topic)`
(the `%r` quoting is abstracted away). -/
def invalidTopicMsg (topic : String) : String := "Invalid topic: " ++ topic

/-- One iteration of `on_message`'s `for directory, pattern in
impl.subscribe(message)` loop: `pubsub.register(directory, pattern,
self, impl, since)`, i.e. the hub-state update plus the `_sow` replay
actions for the new subscription. -/
def regStep (impl : WsImpl) (conn : Nat) (root : String) (normF : String → String)
    (fs : List FsFile) (since : Option Nat)
    (st : Hub × List Action) (dp : String × String) : Hub × List Action :=
  (registerHub st.fst (normF dp.fst) ⟨dp.snd, conn, impl.id⟩,
   st.snd ++ sowActions root fs impl (normF dp.fst) dp.snd since conn)

/-- `_WS.on_message(jmessage)`: the hub-state/action-trace effect of one
inbound frame on connection `conn`.  A decoding failure, a missing
topic, an unknown topic or a raising `impl.subscribe` each produce an
error frame followed by a close (`send_error_msg` with its default
`close_conn=True`).  Otherwise every `(directory, pattern)` pair the
implementation returns is registered — each registration normalizing the
directory with `normF` (modelling
`os.path.realpath(os.path.join(root, directory.lstrip('/')))`) and
immediately replaying the state of the world — and with `snapshot` set
the connection is closed once all registrations are done. -/
def onMessage (implMap : List (String × WsImpl)) (conn : Nat) (root : String)
    (normF : String → String) (fs : List FsFile) (hub : Hub)
    (pm : ParseOutcome) : Hub × List Action :=
  match pm with
  | .malformed e => (hub, [.errFrame conn e, .close conn])
  | .missingTopic e => (hub, [.errFrame conn e, .close conn])
  | .parsed m =>
    match lookupImpl implMap m.topic with
    | none => (hub, [.errFrame conn (invalidTopicMsg m.topic), .close conn])
    | some impl =>
      match impl.subscribeRes with
      | .error e => (hub, [.errFrame conn e, .close conn])
      | .ok pairs =>
        let res := pairs.foldl (regStep impl conn root normF fs (sinceVal m.sinceF)) (hub, [])
        (res.fst, res.snd ++ if m.snapshot then [.close conn] else [])

/-! ### Helper lemmas about the sow pipeline -/

theorem mem_insRec {r a : SowRec} {l : List SowRec} (h : r ∈ insRec a l) :
    r = a ∨ r ∈ l := by
  induction l with
  | nil => simpa [insRec] using h
  | cons b t ih =>
    by_cases hc : recLe a b = true
    · simpa [insRec, hc] using h
    · simp only [insRec, hc, if_neg] at h
      rcases List.mem_cons.mp h with hb | ht
      · exact Or.inr (hb ▸ List.mem_cons_self b t)
      · rcases ih ht with he | hm
        · exact Or.inl he
        · exact Or.inr (List.mem_cons_of_mem b hm)

theorem mem_sortRecs {r : SowRec} {l : List SowRec} (h : r ∈ sortRecs l) : r ∈ l := by
  induction l with
  | nil => simpa [sortRecs] using h
  | cons a t ih =>
    rcases mem_insRec (by simpa [sortRecs] using h) with he | hm
    · exact he ▸ List.mem_cons_self a t
    · exact List.mem_cons_of_mem a (ih hm)

theorem mem_insWhen {r a : SowRec} {l : List SowRec} (h : r ∈ insWhen a l) :
    r = a ∨ r ∈ l := by
  induction l with
  | nil => simpa [insWhen] using h
  | cons b t ih =>
    by_cases hc : a.when ≤ b.when
    · simpa [insWhen, hc] using h
    · simp only [insWhen, hc, if_neg, if_false] at h
      rcases List.mem_cons.mp h with hb | ht
      · exact Or.inr (hb ▸ List.mem_cons_self b t)
      · rcases ih ht with he | hm
        · exact Or.inl he
        · exact Or.inr (List.mem_cons_of_mem b hm)

theorem mem_sortWhen {r : SowRec} {l : List SowRec} (h : r ∈ sortWhen l) : r ∈ l := by
  induction l with
  | nil => simpa [sortWhen] using h
  | cons a t ih =>
    rcases mem_insWhen (by simpa [sortWhen] using h) with he | hm
    · exact he ▸ List.mem_cons_self a t
    · exact List.mem_cons_of_mem a (ih hm)

theorem mem_mergeGo {r : SowRec} : ∀ {n : Nat} {xs ys : List SowRec},
    r ∈ mergeGo n xs ys → r ∈ xs ∨ r ∈ ys := by
  intro n
  induction n with
  | zero => intro xs ys h; simpa [mergeGo] using List.mem_append.mp (by simpa [mergeGo] using h)
  | succ n ih =>
    intro xs ys h
    match xs, ys with
    | [], ys => exact Or.inr (by simpa [mergeGo] using h)
    | x :: xs, [] => exact Or.inl (by simpa [mergeGo] using h)
    | x :: xs, y :: ys =>
      by_cases hc : recLe x y = true
      · simp only [mergeGo, hc, if_pos] at h
        rcases List.mem_cons.mp h with hx | hm
        · exact Or.inl (hx ▸ List.mem_cons_self x xs)
        · rcases ih hm with h1 | h2
          · exact Or.inl (List.mem_cons_of_mem x h1)
          · exact Or.inr h2
      · simp only [mergeGo, hc, if_neg, if_false] at h
        rcases List.mem_cons.mp h with hy | hm
        · exact Or.inr (hy ▸ List.mem_cons_self y ys)
        · rcases ih hm with h1 | h2
          · exact Or.inl h1
          · exact Or.inr (List.mem_cons_of_mem y h2)

theorem mem_mergeRecs {r : SowRec} {xs ys : List SowRec} (h : r ∈ mergeRecs xs ys) :
    r ∈ xs ∨ r ∈ ys :=
  mem_mergeGo h

theorem mem_dedupGo {r : SowRec} : ∀ {prev : Option String} {l : List SowRec},
    r ∈ dedupGo prev l → r ∈ l := by
  intro prev l
  induction l generalizing prev with
  | nil => intro h; simpa [dedupGo] using h
  | cons a t ih =>
    intro h
    by_cases hc : (some a.path == prev) = true
    · simp only [dedupGo, hc, if_pos] at h
      exact List.mem_cons_of_mem a (ih h)
    · simp only [dedupGo, hc, if_neg, if_false] at h
      rcases List.mem_cons.mp h with ha | hm
      · exact ha ▸ List.mem_cons_self a t
      · exact List.mem_cons_of_mem a (ih hm)

theorem dedupGo_head_ne {prev : Option String} {l : List SowRec} {r : SowRec}
    (h : (dedupGo prev l).head? = some r) : (some r.path == prev) = false := by
  induction l generalizing prev with
  | nil => simp [dedupGo] at h
  | cons a t ih =>
    by_cases hc : (some a.path == prev) = true
    · simp only [dedupGo, hc, if_pos] at h
      exact ih h
    · simp only [dedupGo, hc, if_neg, if_false, List.head?_cons, Option.some.injEq] at h
      cases h
      simpa using hc

theorem chain'_dedupGo : ∀ (prev : Option String) (l : List SowRec),
    (dedupGo prev l).Chain' (fun a b => a.path ≠ b.path) := by
  intro prev l
  induction l generalizing prev with
  | nil => simp [dedupGo]
  | cons a t ih =>
    by_cases hc : (some a.path == prev) = true
    · simpa [dedupGo, hc] using ih prev
    · simp only [dedupGo, hc, if_neg, if_false]
      refine List.chain'_cons'.mpr ⟨?_, ih (some a.path)⟩
      intro y hy hpath
      have := dedupGo_head_ne hy
      simp [hpath] at this

theorem mem_getFsSow_since {rootLen : Nat} {fs : List FsFile} {d pat : String}
    {since : Nat} {r : SowRec} (h : r ∈ getFsSow rootLen fs d pat since) :
    since ≤ r.when := by
  have h1 := mem_sortRecs h
  rcases List.mem_filterMap.mp h1 with ⟨f, _, hf⟩
  by_cases hm : since ≤ f.mtime
  · simp only [hm, if_pos] at hf
    cases hf
    exact hm
  · simp [hm] at hf

theorem mem_dbQuery_since {table : List SowRec} {g : String} {since : Nat} {r : SowRec}
    (h : r ∈ dbQuery table g since) : since ≤ r.when := by
  have h1 := mem_sortWhen h
  have h2 := List.mem_filter.mp h1
  have h3 := h2.2
  simp only [Bool.and_eq_true, decide_eq_true_eq] at h3
  exact h3.2

/-! ### C1 -/

/-- The sow database table of the C1 counterexample: one record for path
`/x/a` at timestamp 50. -/
def tblC1 : List SowRec := [⟨50, "/x/a", "A"⟩]

/-- The filesystem of the C1 counterexample: `/r/x/b` (mtime 60) and
`/r/x/a` (mtime 70). -/
def fsC1 : List FsFile := [⟨"/r/x", "b", "B", 60⟩, ⟨"/r/x", "a", "C", 70⟩]

/-- A topic implementation exposing `tblC1` as its sow database. -/
def implC1 : WsImpl := ⟨0, fun _ _ c => .ok (some (c.getD "")), .ok [], some tblC1⟩

/-- C1 counterexample: with path `/x/a` present in both the historical
store (timestamp 50) and the filesystem (timestamp 70), and a record for
another path `/x/b` (timestamp 60) merged in between, sow replay for
`since = 0` emits `/x/a` twice — the `prev_path` deduplication only
compares adjacent records, refuting "emits each path at most once". -/
theorem sow_replay_emits_path_twice :
    (sowRecsList "/r" fsC1 implC1 "/r/x" "*" (some 0)).map SowRec.path
      = ["/x/a", "/x/b", "/x/a"]
    ∧ ((sowRecsList "/r" fsC1 implC1 "/r/x" "*" (some 0)).map SowRec.path).count "/x/a" = 2 := by
  exact ⟨by decide, by decide⟩

/-- C1 (amended): sow replay for a subscription with `since = T` (a null
`T` coerced to 0) never emits a record with timestamp < T, and never
emits the same path twice in adjacent positions of the replay stream;
the same path can however be emitted twice when records of the two
sources for it are separated by another record in merge order. -/
theorem sow_replay_since_bound_and_adjacent_dedup
    (root : String) (fs : List FsFile) (impl : WsImpl) (directory pattern : String)
    (since : Option Nat) :
    (∀ r ∈ sowRecsList root fs impl directory pattern since, since.getD 0 ≤ r.when)
    ∧ (sowRecsList root fs impl directory pattern since).Chain'
        (fun a b => a.path ≠ b.path) := by
  constructor
  · intro r hr
    have hm : r ∈ mergeRecs
        (match impl.sowDb with
         | none => []
         | some table =>
             dbQuery table ((directory.drop root.length) ++ "/" ++ pattern) (since.getD 0))
        (getFsSow root.length fs directory pattern (since.getD 0)) := by
      simpa [sowRecsList, dedupAdj] using mem_dedupGo hr
    rcases mem_mergeRecs hm with hdb | hfs
    · match hsow : impl.sowDb with
      | none => simp [hsow] at hdb
      | some table =>
        rw [hsow] at hdb
        exact mem_dbQuery_since hdb
    · exact mem_getFsSow_since hfs
  · simpa [sowRecsList, dedupAdj] using
      chain'_dedupGo none
        (mergeRecs
          (match impl.sowDb with
           | none => []
           | some table =>
               dbQuery table ((directory.drop root.length) ++ "/" ++ pattern) (since.getD 0))
          (getFsSow root.length fs directory pattern (since.getD 0)))

/-- Witness for the C1 amended theorem at the concrete counterexample
inputs: the first emitted record has timestamp ≥ 0 and the stream has no
two adjacent records with equal paths. -/
theorem sow_replay_since_bound_witness :
    (0 : Nat) ≤ 50
    ∧ (sowRecsList "/r" fsC1 implC1 "/r/x" "*" (some 0)).Chain'
        (fun a b => a.path ≠ b.path) := by
  refine ⟨?_, (sow_replay_since_bound_and_adjacent_dedup "/r" fsC1 implC1 "/r/x" "*" (some 0)).2⟩
  exact (sow_replay_since_bound_and_adjacent_dedup "/r" fsC1 implC1 "/r/x" "*" (some 0)).1
    ⟨50, "/x/a", "A"⟩ (by decide)

/-! ### Helper lemmas about hub state (register / gc) -/

theorem getBucket_cons (k : String) (b : List Sub) (rest : List (String × List Sub))
    (d : String) :
    getBucket ((k, b) :: rest) d = if k == d then b else getBucket rest d := by
  by_cases h : (k == d) = true <;> simp [getBucket, List.find?, h]

theorem getBucket_nil (d : String) : getBucket [] d = [] := rfl

theorem getBucket_eq_nil_of_notmem {d : String} :
    ∀ {hs : List (String × List Sub)}, d ∉ hs.map Prod.fst → getBucket hs d = [] := by
  intro hs
  induction hs with
  | nil => intro _; rfl
  | cons e rest ih =>
    intro h
    simp only [List.map_cons, List.mem_cons] at h
    push_neg at h
    have hk : e.fst ≠ d := fun he => h.1 he.symm
    rw [show e = (e.fst, e.snd) from rfl, getBucket_cons]
    simp [hk, ih h.2]

theorem mem_keys_of_getBucket_ne_nil {d : String} {hs : List (String × List Sub)}
    (h : getBucket hs d ≠ []) : d ∈ hs.map Prod.fst := by
  by_contra hc
  exact h (getBucket_eq_nil_of_notmem hc)

theorem getBucket_setBucket_self (d : String) (b : List Sub) :
    ∀ hs : List (String × List Sub), getBucket (setBucket d b hs) d = b := by
  intro hs
  induction hs with
  | nil => simp [setBucket, getBucket_cons]
  | cons e rest ih =>
    by_cases hk : e.fst = d
    · simp [setBucket, hk, getBucket_cons]
    · simp only [setBucket, beq_iff_eq, hk, if_false]
      rw [show e = (e.fst, e.snd) from rfl, getBucket_cons]
      simp [hk, ih]

theorem getBucket_setBucket_ne (d : String) (b : List Sub) {d' : String} (hne : d ≠ d') :
    ∀ hs : List (String × List Sub), getBucket (setBucket d b hs) d' = getBucket hs d' := by
  intro hs
  induction hs with
  | nil => simp [setBucket, getBucket_cons, getBucket_nil, hne]
  | cons e rest ih =>
    by_cases hk : e.fst = d
    · simp only [setBucket, beq_iff_eq, hk, if_true]
      rw [getBucket_cons, show e = (e.fst, e.snd) from rfl, getBucket_cons]
      simp [hk, hne]
    · simp only [setBucket, beq_iff_eq, hk, if_false]
      rw [show e = (e.fst, e.snd) from rfl, getBucket_cons, getBucket_cons]
      by_cases h2 : e.fst = d'
      · simp [h2]
      · simp [h2, ih]

theorem keys_setBucket_mem (d : String) (b : List Sub) :
    ∀ hs : List (String × List Sub), d ∈ hs.map Prod.fst →
      (setBucket d b hs).map Prod.fst = hs.map Prod.fst := by
  intro hs
  induction hs with
  | nil => intro h; simp at h
  | cons e rest ih =>
    intro h
    by_cases hk : e.fst = d
    · simp [setBucket, hk]
    · have : d ∈ rest.map Prod.fst := by
        simp only [List.map_cons, List.mem_cons] at h
        rcases h with h1 | h2
        · exact absurd h1.symm hk
        · exact h2
      simp [setBucket, hk, ih this]

theorem keys_setBucket_notmem (d : String) (b : List Sub) :
    ∀ hs : List (String × List Sub), d ∉ hs.map Prod.fst →
      (setBucket d b hs).map Prod.fst = hs.map Prod.fst ++ [d] := by
  intro hs
  induction hs with
  | nil => intro _; simp [setBucket]
  | cons e rest ih =>
    intro h
    simp only [List.map_cons, List.mem_cons] at h
    push_neg at h
    have hk : e.fst ≠ d := fun he => h.1 he.symm
    simp [setBucket, hk, ih h.2]

/-- The invariant the hub maintains on its state: bucket-map keys are
unique (it is a dict), and a directory is registered with the watcher
exactly once when its bucket is non-empty and not at all otherwise. -/
def HubInv (h : Hub) : Prop :=
  (h.handlers.map Prod.fst).Nodup ∧
  ∀ d, h.watched.count d = if (getBucket h.handlers d).isEmpty then 0 else 1

theorem hubInv_hub0 : HubInv hub0 := by
  constructor
  · simp [hub0]
  · intro d
    simp [hub0, getBucket_nil]

theorem count_append_singleton (w : List String) (d d' : String) :
    (w ++ [d]).count d' = w.count d' + if d == d' then 1 else 0 := by
  by_cases h : (d == d') = true
  · have : d = d' := by simpa using h
    subst this
    simp [List.count_append]
  · have : d ≠ d' := by simpa [beq_eq_false_iff_ne] using h
    simp [List.count_append, List.count_singleton', h, Ne.symm this]

theorem hubInv_register {h : Hub} (inv : HubInv h) (d : String) (s : Sub) :
    HubInv (registerHub h d s) := by
  obtain ⟨hnd, hcnt⟩ := inv
  by_cases hmem : d ∈ h.handlers.map Prod.fst
  · constructor
    · simpa [registerHub, keys_setBucket_mem d _ _ hmem] using hnd
    · intro d'
      by_cases hd : d = d'
      · subst hd
        by_cases hemp : (getBucket h.handlers d).isEmpty = true
        · simp only [registerHub, hemp, if_true]
          rw [count_append_singleton, hcnt d, hemp]
          simp [getBucket_setBucket_self]
        · simp only [registerHub, hemp, Bool.false_eq_true, if_false]
          rw [hcnt d, getBucket_setBucket_self]
          simp [hemp]
      · by_cases hemp : (getBucket h.handlers d).isEmpty = true
        · simp only [registerHub, hemp, if_true]
          rw [count_append_singleton, hcnt d']
          have : (d == d') = false := by simpa [beq_eq_false_iff_ne]
          rw [this]
          simp [getBucket_setBucket_ne d _ hd]
        · simp only [registerHub, hemp, Bool.false_eq_true, if_false]
          rw [hcnt d', getBucket_setBucket_ne d _ hd]
  · constructor
    · rw [registerHub]
      simp only
      rw [keys_setBucket_notmem d _ _ hmem]
      simp [List.nodup_append, hnd, hmem]
    · intro d'
      have hemp : (getBucket h.handlers d).isEmpty = true := by
        simp [getBucket_eq_nil_of_notmem hmem]
      by_cases hd : d = d'
      · subst hd
        simp only [registerHub, hemp, if_true]
        rw [count_append_singleton, hcnt d, hemp]
        simp [getBucket_setBucket_self]
      · simp only [registerHub, hemp, if_true]
        rw [count_append_singleton, hcnt d']
        have : (d == d') = false := by simpa [beq_eq_false_iff_ne]
        rw [this]
        simp [getBucket_setBucket_ne d _ hd]

theorem gcGo_fst (active : Nat → Bool) :
    ∀ (hs : List (String × List Sub)) (w : List String),
      (gcGo active hs w).fst = hs.map (fun e => (e.fst, e.snd.filter (fun s => active s.conn))) := by
  intro hs
  induction hs with
  | nil => intro w; simp [gcGo]
  | cons e rest ih =>
    intro w
    cases e with
    | mk d subs => simp [gcGo, ih]

theorem count_eraseOne_self (d : String) :
    ∀ w : List String, (eraseOne d w).count d = w.count d - 1 := by
  intro w
  induction w with
  | nil => simp [eraseOne]
  | cons x xs ih =>
    by_cases hx : x = d
    · simp [eraseOne, hx, List.count_cons]
    · have hb : (x == d) = false := by simpa [beq_eq_false_iff_ne]
      have hb2 : (d == x) = false := by
        simpa [beq_eq_false_iff_ne] using fun he => hx he.symm
      simp only [eraseOne, hb, Bool.false_eq_true, if_false, List.count_cons, hb2]
      rw [ih]
      omega

theorem count_eraseOne_ne {d e : String} (hne : d ≠ e) :
    ∀ w : List String, (eraseOne e w).count d = w.count d := by
  intro w
  induction w with
  | nil => simp [eraseOne]
  | cons x xs ih =>
    by_cases hx : x = e
    · subst hx
      have hb : (d == x) = false := by simpa [beq_eq_false_iff_ne]
      have hb2 : (x == d) = false := by
        simpa [beq_eq_false_iff_ne] using fun he => hne he.symm
      simp [eraseOne, List.count_cons, hb, hb2]
    · have hb : (x == e) = false := by simpa [beq_eq_false_iff_ne]
      simp only [eraseOne, hb, Bool.false_eq_true, if_false]
      rw [List.count_cons, List.count_cons, ih]

/-- The number of bucket-map entries for key `d` whose bucket becomes
empty after dropping dead subscriptions (the entries for which a gc pass
calls `remove_dir(d)`). -/
def deadKeyCount (active : Nat → Bool) (d : String) (hs : List (String × List Sub)) : Nat :=
  (hs.filter (fun e => e.fst == d && (e.snd.filter (fun s => active s.conn)).isEmpty)).length

theorem deadKeyCount_notmem (active : Nat → Bool) (d : String) :
    ∀ hs : List (String × List Sub), d ∉ hs.map Prod.fst → deadKeyCount active d hs = 0 := by
  intro hs
  induction hs with
  | nil => intro _; rfl
  | cons e rest ih =>
    intro h
    simp only [List.map_cons, List.mem_cons] at h
    push_neg at h
    have hk : e.fst ≠ d := fun he => h.1 he.symm
    simp [deadKeyCount, hk, List.filter_cons]
    simpa [deadKeyCount] using ih h.2

theorem deadKeyCount_eq (active : Nat → Bool) (d : String) :
    ∀ hs : List (String × List Sub), (hs.map Prod.fst).Nodup →
      deadKeyCount active d hs =
        if d ∈ hs.map Prod.fst then
          (if ((getBucket hs d).filter (fun s => active s.conn)).isEmpty then 1 else 0)
        else 0 := by
  intro hs
  induction hs with
  | nil => intro _; simp [deadKeyCount]
  | cons e rest ih =>
    intro hnd
    rw [List.map_cons, List.nodup_cons] at hnd
    by_cases hk : e.fst = d
    · have hrest : d ∉ rest.map Prod.fst := hk ▸ hnd.1
      have h0 : deadKeyCount active d rest = 0 := deadKeyCount_notmem active d rest hrest
      rw [show e = (e.fst, e.snd) from rfl]
      by_cases hemp : ((e.snd.filter (fun s => active s.conn)).isEmpty) = true
      · simp [deadKeyCount, List.filter_cons, hk, hemp, getBucket_cons]
        simpa [deadKeyCount] using h0
      · simp [deadKeyCount, List.filter_cons, hk, hemp, getBucket_cons]
        simpa [deadKeyCount] using h0
    · have hb : (e.fst == d) = false := by simpa [beq_eq_false_iff_ne] using hk
      have h1 : deadKeyCount active d (e :: rest) = deadKeyCount active d rest := by
        rw [show e = (e.fst, e.snd) from rfl]
        simp [deadKeyCount, List.filter_cons, hb]
      have h2 : getBucket (e :: rest) d = getBucket rest d := by
        rw [show e = (e.fst, e.snd) from rfl, getBucket_cons, hb]
        simp
      have h3 : (d ∈ (e :: rest).map Prod.fst) ↔ (d ∈ rest.map Prod.fst) := by
        simp only [List.map_cons, List.mem_cons]
        constructor
        · intro hx
          rcases hx with hx1 | hx2
          · exact absurd hx1.symm hk
          · exact hx2
        · exact Or.inr
      rw [h1, h2]
      simp only [h3]
      exact ih hnd.2

theorem gcGo_snd_count (active : Nat → Bool) (d : String) :
    ∀ (hs : List (String × List Sub)) (w : List String),
      ((gcGo active hs w).snd).count d = w.count d - deadKeyCount active d hs := by
  intro hs
  induction hs with
  | nil => intro w; simp [gcGo, deadKeyCount]
  | cons e rest ih =>
    intro w
    cases e with
    | mk k subs =>
      by_cases hemp : ((subs.filter (fun s => active s.conn)).isEmpty) = true
      · by_cases hk : k = d
        · subst hk
          simp only [gcGo, hemp, if_true]
          rw [ih, count_eraseOne_self]
          have : deadKeyCount active k ((k, subs) :: rest) = deadKeyCount active k rest + 1 := by
            simp [deadKeyCount, List.filter_cons, hemp]
          rw [this]
          omega
        · simp only [gcGo, hemp, if_true]
          rw [ih, count_eraseOne_ne (fun he => hk he.symm)]
          have : deadKeyCount active d ((k, subs) :: rest) = deadKeyCount active d rest := by
            simp [deadKeyCount, List.filter_cons, hk]
          rw [this]
      · simp only [gcGo, hemp, Bool.false_eq_true, if_false]
        rw [ih]
        have : deadKeyCount active d ((k, subs) :: rest) = deadKeyCount active d rest := by
          simp [deadKeyCount, List.filter_cons, hemp]
        rw [this]

theorem getBucket_map_filter (p : Sub → Bool) :
    ∀ (hs : List (String × List Sub)) (d : String),
      getBucket (hs.map (fun e => (e.fst, e.snd.filter p))) d = (getBucket hs d).filter p := by
  intro hs d
  induction hs with
  | nil => simp [getBucket_nil]
  | cons e rest ih =>
    rw [show e = (e.fst, e.snd) from rfl, List.map_cons]
    by_cases hk : e.fst = d
    · have hb : (e.fst == d) = true := by simpa using hk
      rw [getBucket_cons, getBucket_cons]
      simp only [hb, if_true]
    · have hb : (e.fst == d) = false := by simpa [beq_eq_false_iff_ne] using hk
      rw [getBucket_cons, getBucket_cons]
      simp only [hb, Bool.false_eq_true, if_false]
      exact ih

theorem gcHub_handlers (active : Nat → Bool) (h : Hub) :
    (gcHub active h).handlers
      = h.handlers.map (fun e => (e.fst, e.snd.filter (fun s => active s.conn))) := by
  simp [gcHub, gcGo_fst]

theorem gcHub_watched_count (active : Nat → Bool) (h : Hub) (d : String) :
    (gcHub active h).watched.count d = h.watched.count d - deadKeyCount active d h.handlers := by
  simp [gcHub, gcGo_snd_count]

theorem hubInv_gc {h : Hub} (inv : HubInv h) (active : Nat → Bool) :
    HubInv (gcHub active h) := by
  obtain ⟨hnd, hcnt⟩ := inv
  constructor
  · rw [gcHub_handlers]
    simpa [List.map_map, Function.comp] using hnd
  · intro d
    rw [gcHub_watched_count, gcHub_handlers, getBucket_map_filter, hcnt d,
      deadKeyCount_eq active d h.handlers hnd]
    by_cases hmem : d ∈ h.handlers.map Prod.fst
    · by_cases hfe : (((getBucket h.handlers d).filter (fun s => active s.conn)).isEmpty) = true
      · simp only [hmem, if_true, hfe]
        by_cases hbe : ((getBucket h.handlers d).isEmpty) = true
        · simp [hbe]
        · simp [hbe, hfe]
      · have hbe : ((getBucket h.handlers d).isEmpty) = false := by
          cases hq : (getBucket h.handlers d).isEmpty
          · rfl
          · exfalso
            apply hfe
            rw [List.isEmpty_iff.mp hq]
            rfl
        simp [hmem, hfe, hbe]
    · have hbe : getBucket h.handlers d = [] := getBucket_eq_nil_of_notmem hmem
      simp [hmem, hbe]

theorem hubInv_applyOp {h : Hub} (inv : HubInv h) (op : HubOp) : HubInv (applyOp h op) := by
  cases op with
  | register d s => exact hubInv_register inv d s
  | gc active => exact hubInv_gc inv active

theorem hubInv_runOps (ops : List HubOp) : HubInv (runOps ops) := by
  have : ∀ (h : Hub), HubInv h → HubInv (ops.foldl applyOp h) := by
    induction ops with
    | nil => intro h hh; simpa [List.foldl] using hh
    | cons op rest ih =>
      intro h hh
      simpa [List.foldl] using ih (applyOp h op) (hubInv_applyOp hh op)
  exact this hub0 hubInv_hub0

/-! ### C2 -/

/-- A hub state with one watched directory whose only subscription is
dead under the liveness snapshot `fun _ => false`. -/
def hubC2 : Hub := ⟨[("/r/d", [⟨"*", 1, 0⟩])], ["/r/d"]⟩

/-- C2 counterexample: gc on a directory whose every subscription has a
dead connection removes the directory from the watcher but does NOT
remove it from the bucket map — the key `/r/d` survives, mapped to the
empty list (`self.handlers[directory] = handlers` never deletes the
key), refuting the "and from the bucket map" half of the claim. -/
theorem gc_retains_bucket_key :
    gcHub (fun _ => false) hubC2 = ⟨[("/r/d", [])], []⟩ := by decide

/-- C2 (amended): for every watched directory, gc drops exactly the
subscriptions whose connection is no longer live, and removes the
directory from the Directory Watcher if and only if every subscription
on that directory has a dead connection; the bucket map keeps the
directory's key (bound to the emptied list). -/
theorem gc_drops_dead_and_unwatches (active : Nat → Bool) (h : Hub) (inv : HubInv h) :
    (∀ d, getBucket (gcHub active h).handlers d
        = (getBucket h.handlers d).filter (fun s => active s.conn))
    ∧ ((gcHub active h).handlers.map Prod.fst = h.handlers.map Prod.fst)
    ∧ (∀ d, d ∈ (gcHub active h).watched
        ↔ d ∈ h.watched ∧ ∃ s ∈ getBucket h.handlers d, active s.conn = true) := by
  obtain ⟨hnd, hcnt⟩ := inv
  refine ⟨?_, ?_, ?_⟩
  · intro d
    rw [gcHub_handlers, getBucket_map_filter]
  · rw [gcHub_handlers]
    simp [List.map_map, Function.comp]
  · intro d
    have hc := gcHub_watched_count active h d
    rw [deadKeyCount_eq active d h.handlers hnd] at hc
    by_cases hmem : d ∈ h.handlers.map Prod.fst
    · by_cases hfe : (((getBucket h.handlers d).filter (fun s => active s.conn)).isEmpty) = true
      · have hnone : ∀ s ∈ getBucket h.handlers d, ¬ active s.conn = true := by
          intro s hs hact
          have : s ∈ (getBucket h.handlers d).filter (fun s => active s.conn) :=
            List.mem_filter.mpr ⟨hs, hact⟩
          rw [List.isEmpty_iff.mp hfe] at this
          simp at this
        constructor
        · intro hin
          have : 0 < (gcHub active h).watched.count d := List.count_pos_iff.mpr hin
          rw [hc] at this
          simp only [hmem, if_true, hfe] at this
          rw [hcnt d] at this
          by_cases hbe : ((getBucket h.handlers d).isEmpty) = true <;> simp [hbe] at this
        · rintro ⟨_, s, hs, hact⟩
          exact absurd hact (hnone s hs)
      · have hbne : getBucket h.handlers d ≠ [] := by
          intro hnil
          apply hfe
          rw [hnil]
          rfl
        have hbe : ((getBucket h.handlers d).isEmpty) = false := by
          cases hq : (getBucket h.handlers d).isEmpty
          · rfl
          · exact absurd (List.isEmpty_iff.mp hq) hbne
        have hcount1 : (gcHub active h).watched.count d = 1 := by
          rw [hc]
          simp only [hmem, if_true, hfe, Bool.false_eq_true, if_false]
          rw [hcnt d, hbe]
          simp
        have hin : d ∈ (gcHub active h).watched := by
          apply List.count_pos_iff.mp
          omega
        have hex : ∃ s ∈ getBucket h.handlers d, active s.conn = true := by
          have : (getBucket h.handlers d).filter (fun s => active s.conn) ≠ [] := by
            intro hnil
            apply hfe
            rw [hnil]
            rfl
          rcases List.exists_mem_of_ne_nil _ this with ⟨s, hs⟩
          have := List.mem_filter.mp hs
          exact ⟨s, this.1, this.2⟩
        have hwmem : d ∈ h.watched := by
          apply List.count_pos_iff.mp
          rw [hcnt d, hbe]
          simp
        exact ⟨fun _ => ⟨hwmem, hex⟩, fun _ => hin⟩
    · have hbnil : getBucket h.handlers d = [] := getBucket_eq_nil_of_notmem hmem
      have hn : (gcHub active h).watched.count d = 0 := by
        rw [hc]
        simp only [hmem, if_false]
        rw [hcnt d, hbnil]
        simp
      constructor
      · intro hin
        have := List.count_pos_iff.mpr hin
        omega
      · rintro ⟨_, s, hs, _⟩
        rw [hbnil] at hs
        simp at hs

/-- Witness hub for the C2 amended theorem, reached by two registrations
so that `hubInv_runOps` supplies the invariant: connection 1's
subscription is live under `fun c => c == 1`, connection 2's is dead. -/
def hubC2W : Hub := runOps [.register "/a" ⟨"*", 1, 0⟩, .register "/a" ⟨"x*", 2, 0⟩]

/-- Witness for the C2 amended theorem at `hubC2W`: gc under the
snapshot that keeps only connection 1 leaves exactly the live
subscription in the bucket, keeps the key, and keeps `/a` watched. -/
theorem gc_drops_dead_and_unwatches_witness :
    getBucket (gcHub (fun c => c == 1) hubC2W).handlers "/a" = [⟨"*", 1, 0⟩]
    ∧ (gcHub (fun c => c == 1) hubC2W).handlers.map Prod.fst = hubC2W.handlers.map Prod.fst
    ∧ "/a" ∈ (gcHub (fun c => c == 1) hubC2W).watched := by
  have h := gc_drops_dead_and_unwatches (fun c => c == 1) hubC2W
    (hubInv_runOps [.register "/a" ⟨"*", 1, 0⟩, .register "/a" ⟨"x*", 2, 0⟩])
  refine ⟨?_, h.2.1, ?_⟩
  · rw [h.1 "/a"]
    decide
  · exact (h.2.2 "/a").mpr ⟨by decide, ⟨"*", 1, 0⟩, by decide, by decide⟩

/-! ### C3 -/

/-- C3: registering a second pattern on a directory whose bucket is
already non-empty leaves the watcher untouched, and after any sequence
of register/gc operations from the initial state every normalized path
has at most one registration in the watcher. -/
theorem watcher_at_most_one_registration :
    (∀ (h : Hub) (d : String) (s : Sub), getBucket h.handlers d ≠ [] →
        (registerHub h d s).watched = h.watched)
    ∧ (∀ (ops : List HubOp) (d : String), (runOps ops).watched.count d ≤ 1) := by
  constructor
  · intro h d s hne
    have : (getBucket h.handlers d).isEmpty = false := by
      cases hq : (getBucket h.handlers d).isEmpty
      · rfl
      · exact absurd (List.isEmpty_iff.mp hq) hne
    simp [registerHub, this]
  · intro ops d
    have inv := hubInv_runOps ops
    rw [inv.2 d]
    by_cases hbe : ((getBucket (runOps ops).handlers d).isEmpty) = true <;> simp [hbe]

/-- Witness for C3: a second registration on `/a` (already holding one
subscription) does not change the watcher, and after the two
registrations plus a gc pass the watcher holds `/a` at most once. -/
theorem watcher_at_most_one_registration_witness :
    (registerHub (runOps [.register "/a" ⟨"*", 1, 0⟩]) "/a" ⟨"y*", 2, 0⟩).watched
      = (runOps [.register "/a" ⟨"*", 1, 0⟩]).watched
    ∧ (runOps [.register "/a" ⟨"*", 1, 0⟩, .register "/a" ⟨"y*", 2, 0⟩,
        .gc (fun c => c == 1)]).watched.count "/a" ≤ 1 := by
  constructor
  · exact watcher_at_most_one_registration.1 (runOps [.register "/a" ⟨"*", 1, 0⟩]) "/a"
      ⟨"y*", 2, 0⟩ (by decide)
  · exact watcher_at_most_one_registration.2
      [.register "/a" ⟨"*", 1, 0⟩, .register "/a" ⟨"y*", 2, 0⟩, .gc (fun c => c == 1)] "/a"

/-! ### C4 -/

/-- The sow database table of the C4 counterexample: one record whose
path's last segment `.h` starts with a dot. -/
def tblC4 : List SowRec := [⟨5, "/x/.h", "c"⟩]

/-- A topic implementation exposing `tblC4` and interpreting every
record as the payload `"p"`. -/
def implC4 : WsImpl := ⟨0, fun _ _ _ => .ok (some "p"), .ok [], some tblC4⟩

/-- C4 counterexample: sow replay delivers a message for a dotfile path.
The sow database query filters only by glob and timestamp (SQLite `GLOB`
gives `*` no dotfile exception), so a stored record for `/x/.h` matches
pattern `*` and is published, refuting "no message is ever produced …
nor from SOW replay" for dotfile paths. -/
theorem sow_emits_dotfile_message :
    (sowRecsList "/r" [] implC4 "/r/x" "*" (some 0)).map SowRec.path = ["/x/.h"]
    ∧ sowActions "/r" [] implC4 "/r/x" "*" (some 0) 1 = [.msg 1 "p" 5]
    ∧ hiddenName ".h" = true := ⟨by decide, by decide, by decide⟩

/-- C4 (amended): a path whose last segment starts with `.` never
produces a live message — the created/modified/deleted callbacks drop it
before dispatch — and the filesystem sow scan also excludes dotfile
basenames unless the pattern itself starts with a dot; sow records from
the historical store are not dotfile-filtered. -/
theorem dotfile_never_live_message (sr : StatResult) (fs : FState) (p : Path) (now : Nat)
    (active : Nat → Bool) (bucket : List NSub) (rootLen : Nat)
    (hdot : hiddenName p.base = true) :
    onCreatedActions sr p now active bucket rootLen = .ok []
    ∧ onModifiedActions sr p now active bucket rootLen = .ok []
    ∧ onDeletedActions fs p now active bucket rootLen = []
    ∧ (∀ pattern base : String, hiddenName pattern = false → globKeep pattern base = true →
        hiddenName base = false) := by
  refine ⟨?_, ?_, ?_, ?_⟩
  · simp [onCreatedActions, onCreatedEvent, hdot, Except.map]
  · simp [onModifiedActions, onModifiedEvent, hdot, Except.map]
  · simp [onDeletedActions, onDeletedEvent, hdot]
  · intro pattern base hpat hkeep
    rw [globKeep, hpat] at hkeep
    simp only [Bool.false_or, Bool.and_eq_true, Bool.not_eq_true'] at hkeep
    exact hkeep.1

/-- Witness for the C4 amended theorem at a concrete dotfile path. -/
theorem dotfile_never_live_message_witness :
    hiddenName ".tmp" = true
    ∧ onCreatedActions (.present "x" 3) ⟨"/r/x", ".tmp"⟩ 7 (fun _ => true) [] 2 = .ok [] := by
  refine ⟨by decide, ?_⟩
  exact (dotfile_never_live_message (.present "x" 3) ⟨[], []⟩ ⟨"/r/x", ".tmp"⟩ 7
    (fun _ => true) [] 2 (by decide)).1

/-! ### C5 -/

/-- C5: a deletion notification for a non-dotfile, non-directory path is
suppressed (dispatches no raw event) if and only if the sibling `.done`
marker exists at that moment; with the marker gone the iff's right-hand
side is false, so deletions dispatch again. -/
theorem deletion_suppressed_iff_done_marker (fs : FState) (p : Path) (now : Nat)
    (hdot : hiddenName p.base = false) (hdir : fs.dirs.contains p = false) :
    onDeletedEvent fs p now = none ↔ fexists fs ⟨p.dir, ".done"⟩ = true := by
  have hdir2 : p ∉ fs.dirs := by simpa using hdir
  by_cases hm : fexists fs ⟨p.dir, ".done"⟩ = true
  · simp [onDeletedEvent, hdot, hm]
  · simp [onDeletedEvent, hdot, hm, hdir2]

/-- The filesystem of the C5 witness: `/r/x/.done` and `/r/x/f` exist as
regular files, no directories are modelled. -/
def fsC5 : FState := ⟨[⟨"/r/x", ".done", "", 1⟩, ⟨"/r/x", "f", "data", 2⟩], []⟩

/-- Witness for C5 at `fsC5`: deleting `/r/x/f` while `/r/x/.done`
exists is suppressed, per the iff instantiated concretely. -/
theorem deletion_suppressed_witness :
    hiddenName "f" = false
    ∧ fsC5.dirs.contains (⟨"/r/x", "f"⟩ : Path) = false
    ∧ (onDeletedEvent fsC5 ⟨"/r/x", "f"⟩ 9 = none
        ↔ fexists fsC5 ⟨"/r/x", ".done"⟩ = true) :=
  ⟨by decide, by decide,
    deletion_suppressed_iff_done_marker fsC5 ⟨"/r/x", "f"⟩ 9 (by decide) (by decide)⟩

/-! ### C6 -/

/-- C6: during one `_notify` dispatch, a subscription whose
implementation raises gets an error frame on its own connection; every
other active, matching subscription whose implementation returns a
payload is still delivered; and every error frame in the dispatch
belongs to a subscription whose implementation raised. -/
theorem dispatch_error_isolated (active : Nat → Bool) (bucket : List NSub) (rootLen : Nat)
    (p : Path) (op : Char) (content : Option String) (when : Nat)
    (i : Nat) (hi : i < bucket.length) (e : String)
    (hact : active bucket[i].conn = true)
    (hmatch : globMatch bucket[i].pattern p.base = true)
    (herr : bucket[i].onEvent (p.full.drop rootLen) (some op) content = .error e) :
    (Action.errFrame bucket[i].conn e
        ∈ notifyActions active bucket rootLen p op content when)
    ∧ (∀ (j : Nat) (hj : j < bucket.length) (pl : String),
        active bucket[j].conn = true →
        globMatch bucket[j].pattern p.base = true →
        bucket[j].onEvent (p.full.drop rootLen) (some op) content = .ok (some pl) →
        Action.msg bucket[j].conn pl when
          ∈ notifyActions active bucket rootLen p op content when)
    ∧ (∀ (c : Nat) (t : String),
        Action.errFrame c t ∈ notifyActions active bucket rootLen p op content when →
        ∃ s ∈ bucket, s.conn = c
          ∧ s.onEvent (p.full.drop rootLen) (some op) content = .error t) := by
  refine ⟨?_, ?_, ?_⟩
  · apply List.mem_flatMap.mpr
    refine ⟨bucket[i], List.getElem_mem hi, ?_⟩
    simp [subActions, hact, hmatch, herr]
  · intro j hj pl hact2 hmatch2 hok
    apply List.mem_flatMap.mpr
    refine ⟨bucket[j], List.getElem_mem hj, ?_⟩
    simp [subActions, hact2, hmatch2, hok]
  · intro c t hmem
    rcases List.mem_flatMap.mp hmem with ⟨s, hsmem, hin⟩
    refine ⟨s, hsmem, ?_⟩
    by_cases ha : active s.conn = true
    · by_cases hm : globMatch s.pattern p.base = true
      · rcases hoe : s.onEvent (p.full.drop rootLen) (some op) content with e' | po
        · simp [subActions, ha, hm, hoe] at hin
          constructor <;> simp_all
        · cases po with
          | none => simp [subActions, ha, hm, hoe] at hin
          | some pl => simp [subActions, ha, hm, hoe] at hin
      · simp [subActions, ha, hm] at hin
    · have ha' : active s.conn = false := by
        cases hq : active s.conn
        · rfl
        · exact absurd hq ha
      simp [subActions, ha'] at hin

/-- The bucket of the C6 witness: two wildcard subscriptions, the first
raising `"boom"`, the second producing payload `"pay"`. -/
def bucketC6 : List NSub :=
  [⟨"*", 1, fun _ _ _ => .error "boom"⟩, ⟨"*", 2, fun _ _ _ => .ok (some "pay")⟩]

/-- Witness for C6 at `bucketC6`: the dispatch delivers the error frame
to connection 1 and still delivers the payload to connection 2. -/
theorem dispatch_error_isolated_witness :
    Action.errFrame 1 "boom"
      ∈ notifyActions (fun _ => true) bucketC6 2 ⟨"/r/x", "f"⟩ 'c' (some "data") 9
    ∧ Action.msg 2 "pay" 9
      ∈ notifyActions (fun _ => true) bucketC6 2 ⟨"/r/x", "f"⟩ 'c' (some "data") 9 := by
  have h := dispatch_error_isolated (fun _ => true) bucketC6 2 ⟨"/r/x", "f"⟩ 'c'
    (some "data") 9 0 (by decide) "boom" rfl (by decide) rfl
  exact ⟨h.1, h.2.1 1 (by decide) "pay" rfl (by decide) rfl⟩

/-! ### C7 -/

/-- C7: `_handle` only catches `IOError`, so when the file vanished
before the `os.stat` call the `OSError(ENOENT)` that stat raises in
Python 2 escapes (first two conjuncts) instead of degrading to a
deletion event; the degradation the claim describes only happens when
the file vanishes between `os.stat` and `open` (third conjunct). -/
theorem handle_vanished_before_stat_raises :
    onCreatedActions .goneBeforeStat ⟨"/r/x", "f"⟩ 5 (fun _ => true) [] 2 = .error .osENOENT
    ∧ onCreatedEvent .goneBeforeStat ⟨"/r/x", "f"⟩ 5 = .error .osENOENT
    ∧ onCreatedEvent (.goneBeforeOpen 3) ⟨"/r/x", "f"⟩ 5 = .ok (some ⟨'d', none, 5⟩)
    ∧ onModifiedEvent .goneBeforeStat ⟨"/r/x", "f"⟩ 5 = .error .osENOENT :=
  ⟨rfl, rfl, rfl, rfl⟩

/-! ### C8 -/

/-- C8: every decoding failure (malformed body or missing `topic`) and
every unknown topic makes the protocol layer send the client one error
frame describing the failure and then close the connection. -/
theorem protocol_error_frame_and_close (implMap : List (String × WsImpl)) (conn : Nat)
    (root : String) (normF : String → String) (fs : List FsFile) (hub : Hub) :
    (∀ e, (onMessage implMap conn root normF fs hub (.malformed e)).snd
        = [.errFrame conn e, .close conn])
    ∧ (∀ e, (onMessage implMap conn root normF fs hub (.missingTopic e)).snd
        = [.errFrame conn e, .close conn])
    ∧ (∀ m : SubMsg, lookupImpl implMap m.topic = none →
        (onMessage implMap conn root normF fs hub (.parsed m)).snd
          = [.errFrame conn (invalidTopicMsg m.topic), .close conn]) := by
  refine ⟨fun e => rfl, fun e => rfl, fun m hm => ?_⟩
  simp [onMessage, hm]

/-- Witness for C8: an unknown topic `"t"` against an empty topic map
yields exactly the error frame and the close. -/
theorem protocol_error_frame_and_close_witness :
    lookupImpl [] "t" = none
    ∧ (onMessage [] 1 "/r" id [] hub0 (.parsed ⟨"t", .absent, false⟩)).snd
        = [.errFrame 1 (invalidTopicMsg "t"), .close 1] :=
  ⟨rfl, (protocol_error_frame_and_close [] 1 "/r" id [] hub0).2.2 ⟨"t", .absent, false⟩ rfl⟩

/-! ### C9 -/

/-- The connection an action is addressed to. -/
def Action.target : Action → Nat
  | .msg c _ _ => c
  | .errFrame c _ => c
  | .close c => c

theorem regStep_foldl_snd (impl : WsImpl) (conn : Nat) (root : String)
    (normF : String → String) (fs : List FsFile) (since : Option Nat) :
    ∀ (pairs : List (String × String)) (hub : Hub) (acc : List Action),
      (pairs.foldl (regStep impl conn root normF fs since) (hub, acc)).snd
        = acc ++ pairs.flatMap
            (fun dp => sowActions root fs impl (normF dp.fst) dp.snd since conn) := by
  intro pairs
  induction pairs with
  | nil => intro hub acc; simp
  | cons dp rest ih =>
    intro hub acc
    rw [List.foldl_cons, List.flatMap_cons]
    rw [show regStep impl conn root normF fs since (hub, acc) dp
      = (registerHub hub (normF dp.fst) ⟨dp.snd, conn, impl.id⟩,
         acc ++ sowActions root fs impl (normF dp.fst) dp.snd since conn) from rfl]
    rw [ih, List.append_assoc]

theorem sowActionsFor_msgs
    {onEv : String → Option Char → Option String → Except String (Option String)}
    {conn : Nat} {recs : List SowRec}
    (hok : ∀ r ∈ recs, ∃ po, onEv r.path none (some r.content) = .ok po) :
    ∀ a ∈ sowActionsFor onEv conn recs, ∃ pl w, a = .msg conn pl w := by
  intro a ha
  rcases List.mem_flatMap.mp ha with ⟨r, hr, hin⟩
  rcases hok r hr with ⟨po, hpo⟩
  cases po with
  | none => simp [hpo] at hin
  | some pl =>
    rw [hpo] at hin
    simp only [List.mem_singleton] at hin
    exact ⟨pl, r.when, hin⟩

theorem getLast?_append_singleton (l : List Action) (a : Action) :
    (l ++ [a]).getLast? = some a := by
  induction l with
  | nil => rfl
  | cons x xs ih => rw [List.cons_append, List.getLast?_cons, ih]; rfl

theorem dropLast_append_singleton (l : List Action) (a : Action) :
    (l ++ [a]).dropLast = l := by
  simp

/-- C9: for a well-formed subscribe request with `snapshot = true` whose
replay raises no interpretation error, the action trace of `on_message`
is the replay messages followed by exactly one close — the close is the
last action, every action before it is a replay message to that
connection — and once the connection is inactive a live dispatch
(`_notify`) addresses nothing to it. -/
theorem snapshot_closes_once_after_replay (implMap : List (String × WsImpl)) (conn : Nat)
    (root : String) (normF : String → String) (fs : List FsFile) (hub : Hub)
    (m : SubMsg) (impl : WsImpl) (pairs : List (String × String))
    (himpl : lookupImpl implMap m.topic = some impl)
    (hsub : impl.subscribeRes = .ok pairs)
    (hsnap : m.snapshot = true)
    (hok : ∀ dp ∈ pairs,
      ∀ r ∈ sowRecsList root fs impl (normF dp.fst) dp.snd (sinceVal m.sinceF),
        ∃ po, impl.onEvent r.path none (some r.content) = .ok po) :
    ((onMessage implMap conn root normF fs hub (.parsed m)).snd).getLast?
        = some (.close conn)
    ∧ (((onMessage implMap conn root normF fs hub (.parsed m)).snd).filter
        (fun a => match a with | .close _ => true | _ => false)).length = 1
    ∧ (∀ a ∈ ((onMessage implMap conn root normF fs hub (.parsed m)).snd).dropLast,
        ∃ pl w, a = Action.msg conn pl w)
    ∧ (∀ (active : Nat → Bool) (bucket : List NSub) (rootLen : Nat) (p : Path) (op : Char)
        (content : Option String) (when : Nat) (a : Action),
        active conn = false →
        a ∈ notifyActions active bucket rootLen p op content when →
        a.target ≠ conn) := by
  have htr : (onMessage implMap conn root normF fs hub (.parsed m)).snd
      = pairs.flatMap
          (fun dp => sowActions root fs impl (normF dp.fst) dp.snd (sinceVal m.sinceF) conn)
        ++ [.close conn] := by
    simp only [onMessage, himpl, hsub, hsnap, if_true]
    rw [regStep_foldl_snd]
    simp
  have hmsgs : ∀ a ∈ pairs.flatMap
      (fun dp => sowActions root fs impl (normF dp.fst) dp.snd (sinceVal m.sinceF) conn),
      ∃ pl w, a = Action.msg conn pl w := by
    intro a ha
    rcases List.mem_flatMap.mp ha with ⟨dp, hdp, hin⟩
    exact sowActionsFor_msgs (hok dp hdp) a hin
  refine ⟨?_, ?_, ?_, ?_⟩
  · rw [htr, getLast?_append_singleton]
  · rw [htr, List.filter_append]
    have hnil : (pairs.flatMap
        (fun dp => sowActions root fs impl (normF dp.fst) dp.snd (sinceVal m.sinceF) conn)).filter
          (fun a => match a with | .close _ => true | _ => false) = [] := by
      apply List.filter_eq_nil_iff.mpr
      intro a ha
      rcases hmsgs a ha with ⟨pl, w, hw⟩
      subst hw
      simp
    rw [hnil]
    rfl
  · rw [htr, dropLast_append_singleton]
    exact hmsgs
  · intro active bucket rootLen p op content when a hdead hmem
    rcases List.mem_flatMap.mp hmem with ⟨s, _, hin⟩
    by_cases hsc : s.conn = conn
    · rw [show (subActions active rootLen p op content when s
          = if !active s.conn then []
            else if globMatch s.pattern p.base then
              match s.onEvent (p.full.drop rootLen) (some op) content with
              | .ok none => []
              | .ok (some payload) => [.msg s.conn payload when]
              | .error e => [.errFrame s.conn e, .close s.conn]
            else []) from rfl, hsc, hdead] at hin
      simp at hin
    · by_cases ha : active s.conn = true
      · by_cases hmt : globMatch s.pattern p.base = true
        · rcases hoe : s.onEvent (p.full.drop rootLen) (some op) content with e' | po
          · simp [subActions, ha, hmt, hoe] at hin
            rcases hin with h1 | h1 <;> (subst h1; simpa [Action.target])
          · cases po with
            | none => simp [subActions, ha, hmt, hoe] at hin
            | some pl =>
              simp [subActions, ha, hmt, hoe] at hin
              subst hin
              simpa [Action.target]
        · simp [subActions, ha, hmt] at hin
      · have ha' : active s.conn = false := by
          cases hq : active s.conn
          · rfl
          · exact absurd hq ha
        simp [subActions, ha'] at hin

/-- The topic implementation of the C9 witness: one `(directory,
pattern)` pair, no sow database, every interpretation returning `None`. -/
def implC9 : WsImpl := ⟨0, fun _ _ _ => .ok none, .ok [("d", "*")], none⟩

/-- Witness for C9 at a concrete snapshot subscription: the trace ends
with the close of connection 1 and contains exactly one close. -/
theorem snapshot_closes_once_witness :
    ((onMessage [("t", implC9)] 1 "/r" id [] hub0 (.parsed ⟨"t", .absent, true⟩)).snd).getLast?
        = some (.close 1)
    ∧ (((onMessage [("t", implC9)] 1 "/r" id [] hub0 (.parsed ⟨"t", .absent, true⟩)).snd).filter
        (fun a => match a with | .close _ => true | _ => false)).length = 1 := by
  have h := snapshot_closes_once_after_replay [("t", implC9)] 1 "/r" id [] hub0
    ⟨"t", .absent, true⟩ implC9 [("d", "*")] rfl rfl rfl ?_
  · exact ⟨h.1, h.2.1⟩
  · intro dp hdp r hr
    simp only [List.mem_singleton] at hdp
    subst hdp
    have hq : sowRecsList "/r" [] implC9 (id "d") "*" (sinceVal SinceField.absent) = [] := by
      decide
    rw [hq] at hr
    simp at hr

/-! ### C10 -/

/-- C10: a subscription whose `since` is Python `None` replays exactly
as `since = 0` does (the coercion at the top of `_sow`), which is also
what an absent field decodes to; and with `since = 0` the timestamp
filters of both sources admit every record. -/
theorem since_null_same_as_zero (root : String) (fs : List FsFile) (impl : WsImpl)
    (directory pattern : String) :
    (sowRecsList root fs impl directory pattern none
      = sowRecsList root fs impl directory pattern (some 0))
    ∧ sinceVal .null = none
    ∧ sinceVal .absent = some 0
    ∧ (∀ (table : List SowRec) (g : String),
        dbQuery table g 0 = sortWhen (table.filter (fun r => globMatch g r.path)))
    ∧ (∀ (rootLen : Nat) (fsf : List FsFile) (d p : String),
        getFsSow rootLen fsf d p 0
          = sortRecs ((fsf.filter (fun f => f.dir == d && globKeep p f.base)).map
              (fun f => ⟨f.mtime, (f.dir ++ "/" ++ f.base).drop rootLen, f.content⟩))) := by
  refine ⟨rfl, rfl, rfl, ?_, ?_⟩
  · intro table g
    unfold dbQuery
    congr 1
    apply List.filter_congr
    intro r _
    simp
  · intro rootLen fsf d p
    unfold getFsSow
    congr 1
    have : (fun (f : FsFile) =>
        if 0 ≤ f.mtime then
          some (⟨f.mtime, (f.dir ++ "/" ++ f.base).drop rootLen, f.content⟩ : SowRec)
        else none)
      = fun (f : FsFile) =>
          some (⟨f.mtime, (f.dir ++ "/" ++ f.base).drop rootLen, f.content⟩ : SowRec) := by
      funext f
      simp
    rw [this, show (fun (f : FsFile) =>
        some (⟨f.mtime, (f.dir ++ "/" ++ f.base).drop rootLen, f.content⟩ : SowRec))
      = some ∘ (fun (f : FsFile) =>
          (⟨f.mtime, (f.dir ++ "/" ++ f.base).drop rootLen, f.content⟩ : SowRec)) from rfl,
      List.filterMap_eq_map]

end Treadmill
